import Mathlib

/-!
Verification development for the japa practice-log repository.

The repository has two parts:

* the ingestion/consolidation step, implemented by the shell scripts
  `bin/merge.sh` (production variant: appends every line of each pending
  raw CSV, including its header, and unconditionally removes the file) and
  `rollup.sh` / the test-variant script (appends each file with its first
  line stripped by `tail -n +2`, with removal `&&`-chained after the
  appends succeed);

* the aggregation/display step in `js/app.js`, which loads the canonical
  CSV into DuckDB and serves daily / weekly / hourly rollups under a
  year / month / trailing-range filter.

Both are embedded shallowly below: lines are `String`s, pending raw files
are name/content pairs, the canonical store is a list of lines, and the
DuckDB queries of `app.js` are re-expressed as list computations over
parsed records.  Machine reals (DOUBLE sums) are modelled as `ℚ`, which is
exact on the decimal literals the data carries.  Civil timestamps are
compared through mixed-radix keys, which realize exactly the lexicographic
order of the fixed-width `YYYY-MM-DD HH:MM:SS` strings the code compares.
-/

/-! ## Definitions -/

/-! ### Byte-lexicographic order on character lists

`bash` expands the glob `"$RAW_DIR"/*.csv` in lexicographic (byte) order of
the filenames; this is the order the merge loop visits pending sources in.
-/

/-- Strict lexicographic order on character lists, by code point: the order
in which the shell glob enumerates filenames. -/
def lexLt : List Char → List Char → Bool
  | [], [] => false
  | [], _ :: _ => true
  | _ :: _, [] => false
  | a :: as, b :: bs => decide (a < b) || (a == b && lexLt as bs)

/-- A pending raw CSV file in `data/raw/`: its filename and its lines. -/
structure RawFile where
  name : String
  lines : List String
deriving DecidableEq, Repr

/-- Glob comparison on filenames. -/
def nameLt (f g : RawFile) : Bool := lexLt f.name.data g.name.data

/-- Insert a file into a name-sorted list (the shell glob presents the
directory's files in lexicographic filename order). -/
def insertFile (f : RawFile) : List RawFile → List RawFile
  | [] => [f]
  | g :: gs => if nameLt g f then g :: insertFile f gs else f :: g :: gs

/-- The pending pool as the glob enumerates it: sorted by filename. -/
def sortPool (pool : List RawFile) : List RawFile := pool.foldr insertFile []

/-- The relation "f comes no later than g in glob order". -/
def globLe (f g : RawFile) : Prop := nameLt g f = false

/-- State seen by a merge script: the canonical store `data.csv` as a list
of lines, and the pending pool `raw/*.csv`. -/
structure MergeState where
  store : List String
  pending : List RawFile
deriving DecidableEq, Repr

/-- Result of one run of a merge script: the new store and pool, the count
of sources processed, the count of lines appended, and the exit code. -/
structure MergeOutcome where
  store : List String
  pending : List RawFile
  sourcesProcessed : ℕ
  linesAppended : ℕ
  exitCode : ℕ
deriving DecidableEq, Repr

/-- Loop body of `bin/merge.sh`:
`cat "$file" >> "$OUTPUT_FILE"; echo "" >> "$OUTPUT_FILE"; rm "$file"`.
The three statements are not `&&`-chained, so when the `cat` redirection
fails (`ok f = false`) the `echo` and the `rm` still run.  The file's
lines are appended whole — headers included — when `cat` succeeds. -/
def mergeMainStep (ok : RawFile → Bool) (store : List String) (f : RawFile) : List String :=
  (if ok f then store ++ f.lines else store) ++ [""]

/-- `bin/merge.sh`: halt with exit 1 when `data.csv` is missing; report
zero-work success when `raw/` holds no CSV; otherwise append every pending
file (full contents plus a blank separator line) in glob order and remove
each file unconditionally. -/
def mergeMain (ok : RawFile → Bool) (storeExists : Bool) (s : MergeState) : MergeOutcome :=
  if !storeExists then
    ⟨s.store, s.pending, 0, 0, 1⟩
  else if s.pending.isEmpty then
    ⟨s.store, s.pending, 0, 0, 0⟩
  else
    let st := (sortPool s.pending).foldl (mergeMainStep ok) s.store
    ⟨st, [], s.pending.length, st.length - s.store.length, 0⟩

/-- Loop body of the test-variant script (and of `rollup.sh`):
`tail -n +2 "$file" >> OUT && echo "" >> OUT && rm "$file"`.
`tail -n +2` drops exactly the first line of the file, whatever it
contains; the `rm` is `&&`-chained, so a file whose append fails is kept
in the pool. -/
def mergeTestStep (ok : RawFile → Bool) (acc : List String × List RawFile) (f : RawFile) :
    List String × List RawFile :=
  if ok f then (acc.1 ++ f.lines.drop 1 ++ [""], acc.2) else (acc.1, acc.2 ++ [f])

/-- The test-variant merge script (`unnamed/part_000`, same loop as
`rollup.sh`). -/
def mergeTest (ok : RawFile → Bool) (storeExists : Bool) (s : MergeState) : MergeOutcome :=
  if !storeExists then
    ⟨s.store, s.pending, 0, 0, 1⟩
  else if s.pending.isEmpty then
    ⟨s.store, s.pending, 0, 0, 0⟩
  else
    let r := (sortPool s.pending).foldl (mergeTestStep ok) (s.store, [])
    ⟨r.1, r.2, s.pending.length - r.2.length, r.1.length - s.store.length, 0⟩

/-- Oracle for runs in which every append redirection succeeds. -/
def allOk : RawFile → Bool := fun _ => true

/-- Oracle for a run in which every append redirection fails. -/
def noOk : RawFile → Bool := fun _ => false

/-- Lines appended to the store by one full-content pass (`cat`) over a
file list, each file followed by the blank separator line `echo ""` adds. -/
def filesLines : List RawFile → List String
  | [] => []
  | f :: fs => f.lines ++ [""] ++ filesLines fs

/-- Lines appended by the test-variant pass: each successfully-appended
file contributes its lines minus the first (`tail -n +2`) plus the blank
separator. -/
def filesTailLines (ok : RawFile → Bool) : List RawFile → List String
  | [] => []
  | f :: fs => (if ok f then f.lines.drop 1 ++ [""] else []) ++ filesTailLines ok fs

/-- Concatenation of a list of blocks. -/
def joinL {α : Type} : List (List α) → List α
  | [] => []
  | b :: bs => b ++ joinL bs

/-- A header row, detected structurally: a row starting with the literal
column-name token `time` of the timestamp field (§4.2 of the spec). -/
def isHeaderRow (l : String) : Bool :=
  match l.data with
  | 't' :: 'i' :: 'm' :: 'e' :: _ => true
  | _ => false

/-- Number of header rows a list of store lines carries. -/
def headerCount (lines : List String) : ℕ := (lines.filter isHeaderRow).length

/-! ### The record data model and its validator -/

/-- One event record, per the data model (§3): a civil timestamp with
second precision, a strike count, a duration in seconds, and a value. -/
structure Record where
  y : ℕ
  m : ℕ
  d : ℕ
  hh : ℕ
  mm : ℕ
  ss : ℕ
  strikes : ℤ
  len : ℤ
  value : ℚ
deriving DecidableEq, Repr

/-- ASCII decimal digit test. -/
def isDig (c : Char) : Bool := decide (48 ≤ c.toNat) && decide (c.toNat ≤ 57)

/-- Numeric value of an ASCII digit. -/
def dval (c : Char) : ℕ := c.toNat - 48

/-- Value of a digit string, most significant first. -/
def digitsToNat (cs : List Char) : ℕ := cs.foldl (fun a c => a * 10 + dval c) 0

def parseNatCs (cs : List Char) : Option ℕ :=
  if cs.isEmpty then none
  else if cs.all isDig then some (digitsToNat cs) else none

def parseIntCs : List Char → Option ℤ
  | '-' :: rest => (parseNatCs rest).map (fun n => -(n : ℤ))
  | cs => (parseNatCs cs).map (fun n => (n : ℤ))

def parseRatPos (cs : List Char) : Option ℚ :=
  match cs.splitOn '.' with
  | [ip] => (parseNatCs ip).map (fun n => (n : ℚ))
  | [ip, fp] =>
      match parseNatCs ip, parseNatCs fp with
      | some i, some f => some ((i : ℚ) + (f : ℚ) / (10 : ℚ) ^ fp.length)
      | _, _ => none
  | _ => none

def parseRatCs : List Char → Option ℚ
  | '-' :: rest => (parseRatPos rest).map (fun q => -q)
  | cs => parseRatPos cs

/-- Parse a timestamp of shape `YYYY-MM-DD HH:MM:SS` with in-range civil
fields (the shape the canonical store carries, §6, and the field ranges
the `check-data` Makefile target enforces). -/
def parseTs (cs : List Char) : Option (ℕ × ℕ × ℕ × ℕ × ℕ × ℕ) :=
  match cs with
  | [y1, y2, y3, y4, '-', m1, m2, '-', d1, d2, ' ', h1, h2, ':', n1, n2, ':', s1, s2] =>
      if ([y1, y2, y3, y4, m1, m2, d1, d2, h1, h2, n1, n2, s1, s2].all isDig) then
        if 1 ≤ digitsToNat [m1, m2] ∧ digitsToNat [m1, m2] ≤ 12 ∧
            1 ≤ digitsToNat [d1, d2] ∧ digitsToNat [d1, d2] ≤ 31 ∧
            digitsToNat [h1, h2] ≤ 23 ∧ digitsToNat [n1, n2] ≤ 59 ∧
            digitsToNat [s1, s2] ≤ 59 then
          some (digitsToNat [y1, y2, y3, y4], digitsToNat [m1, m2], digitsToNat [d1, d2],
            digitsToNat [h1, h2], digitsToNat [n1, n2], digitsToNat [s1, s2])
        else none
      else none
  | _ => none

/-- Modelled from the spec: the repository ships no in-source row
validator (the merge scripts copy text unexamined; CSV parsing happens in
the external DuckDB library), so the Record constraints of §3/§4.1 —
parseable `YYYY-MM-DD HH:MM:SS` timestamp, integer `strikes ≥ 0`, integer
`length > 0`, decimal `value ≥ 0` — are realized here as a row validator:
a CSV line yields `some` record exactly when it satisfies them. -/
def parseRecord (line : String) : Option Record :=
  match line.data.splitOn ',' with
  | [tsF, stF, lenF, valF] =>
      match parseTs tsF, parseIntCs stF, parseIntCs lenF, parseRatCs valF with
      | some (y, mo, da, ho, mi, se), some st, some ln, some v =>
          if 0 ≤ st ∧ 0 < ln ∧ 0 ≤ v then
            some ⟨y, mo, da, ho, mi, se, st, ln, v⟩
          else none
      | _, _, _, _ => none
  | _ => none

/-- Chronological key of a calendar date, mixed radix: for in-range civil
fields it realizes exactly the lexicographic order that both the
`YYYY-MM-DD` strings and the calendar give. -/
def Record.dateKey (r : Record) : ℕ := (r.y * 13 + r.m) * 32 + r.d

/-- Chronological key of a record's timestamp: for in-range civil fields
it realizes the lexicographic (= chronological) order of the
`YYYY-MM-DD HH:MM:SS` strings the store carries. -/
def Record.tsKey (r : Record) : ℕ := ((r.dateKey * 24 + r.hh) * 60 + r.mm) * 60 + r.ss

/-- Timestamp keys of the records a list of store lines carries; header
rows and blank separator lines carry no record and are skipped, as the
parser tolerates them as noise (§6). -/
def storeTimes (lines : List String) : List ℕ :=
  lines.filterMap (fun l => (parseRecord l).map Record.tsKey)

/-! ### Calendar arithmetic (proleptic Gregorian)

Needed for the filename digits, for DuckDB's `STRFTIME '%W'` week number
(week 1 starts at the first Monday of the year), and for the JS
`Date.setMonth` arithmetic of the trailing-range filter. -/

def leapYear (y : ℕ) : Bool :=
  decide (y % 4 = 0) && (decide (y % 100 ≠ 0) || decide (y % 400 = 0))

def daysInMonth (y m : ℕ) : ℕ :=
  if m = 2 then (if leapYear y then 29 else 28)
  else if m = 4 ∨ m = 6 ∨ m = 9 ∨ m = 11 then 30
  else 31

def monthDaysBefore (y m : ℕ) : ℕ :=
  ((List.range (m - 1)).map (fun i => daysInMonth y (i + 1))).sum

/-- 1-based ordinal of a date within its year. -/
def dayOfYear (y m d : ℕ) : ℕ := monthDaysBefore y m + d

/-- Days of the proleptic Gregorian calendar strictly before year `y`. -/
def daysBeforeYear (y : ℕ) : ℕ :=
  365 * (y - 1) + (y - 1) / 4 - (y - 1) / 100 + (y - 1) / 400

/-- Rata Die day number: `0001-01-01` is day 1 (a Monday). -/
def rataDie (y m d : ℕ) : ℕ := daysBeforeYear y + dayOfYear y m d

/-- Day of week, `0` = Sunday (the C `tm_wday` convention). -/
def weekdaySun0 (y m d : ℕ) : ℕ := rataDie y m d % 7

/-- C `strftime` `%W` as DuckDB computes it: the week number with Monday
as first day of the week; days before the year's first Monday fall in
week `00`. -/
def mweek (y m d : ℕ) : ℕ :=
  (dayOfYear y m d - 1 + 7 - (weekdaySun0 y m d + 6) % 7) / 7

/-- The week numbering §4.4 of the spec describes: week 1 holds days 1–7
of the year, week 2 days 8–14, and so on (7-day spans aligned to the
first day of the year). -/
def janWeek (y m d : ℕ) : ℕ := (dayOfYear y m d - 1) / 7 + 1

/-! ### Zero-padded decimal rendering (filenames and week keys) -/

/-- An ASCII digit character from a value `0`–`9`. -/
def dc : ℕ → Char
  | 0 => '0' | 1 => '1' | 2 => '2' | 3 => '3' | 4 => '4'
  | 5 => '5' | 6 => '6' | 7 => '7' | 8 => '8' | _ => '9'

/-- Two-digit zero-padded rendering (of `n % 100`). -/
def pad2ch (n : ℕ) : List Char := [dc (n / 10 % 10), dc (n % 10)]

/-- Four-digit zero-padded rendering (of `n % 10000`). -/
def pad4ch (n : ℕ) : List Char := pad2ch (n / 100) ++ pad2ch (n % 100)

/-- The filename `bin/fake.js` gives a raw day export: `YYYY-MM-DD.csv`. -/
def dateFileName (y m d : ℕ) : String :=
  ⟨pad4ch y ++ '-' :: (pad2ch m ++ '-' :: (pad2ch d ++ ".csv".data))⟩

/-- The weekly bucket key `app.js` computes: `STRFTIME(time_str, '%Y-W%W')`. -/
def weekKey (r : Record) : String :=
  ⟨pad4ch r.y ++ '-' :: 'W' :: pad2ch (mweek r.y r.m r.d)⟩

/-! ### The aggregation layer of `js/app.js` (second revision) -/

/-- The user-selected slice: `selectedYear` (always a parsed number),
optional `selectedMonth`, optional trailing range in months (`range`,
`some n` models a truthy `parseInt(rangeSelect.value)`). -/
structure FilterState where
  year : ℕ
  month : Option ℕ
  range : Option ℕ
deriving DecidableEq, Repr

/-- `const useWeekly = !range && !selectedMonth` — weekly rollup exactly
for a full-year view. -/
def useWeekly (f : FilterState) : Bool := f.range.isNone && f.month.isNone

inductive Granularity where
  | Day : Granularity
  | Week : Granularity
deriving DecidableEq, Repr

/-- Bucket width the chart uses: weekly when `useWeekly`, daily otherwise. -/
def selectGranularity (f : FilterState) : Granularity :=
  if useWeekly f then Granularity.Week else Granularity.Day

/-- Insertion into a sorted, duplicate-free key list (the effect of SQL
`GROUP BY` + `ORDER BY` on the key column). -/
def insKey {α : Type} (lt : α → α → Bool) (x : α) : List α → List α
  | [] => [x]
  | y :: ys => if lt y x then y :: insKey lt x ys else if lt x y then x :: y :: ys else y :: ys

/-- Sorted, duplicate-free list of keys. -/
def sortKeys {α : Type} (lt : α → α → Bool) (ks : List α) : List α :=
  ks.foldl (fun acc k => insKey lt k acc) []

def natLt (a b : ℕ) : Bool := decide (a < b)

/-- One row of the `dailyDataQuery` result: day key, year, month, count
of rows (`rounds`) and `SUM(value)`. -/
structure DayBucket where
  day : ℕ
  year : ℕ
  month : ℕ
  rounds : ℕ
  totalValue : ℚ
deriving DecidableEq, Repr

def dayBucketOf (rs : List Record) (k : ℕ) : DayBucket :=
  let ms := rs.filter (fun r => r.dateKey == k)
  ⟨k, k / 416, k / 32 % 13, ms.length, (ms.map Record.value).sum⟩

/-- `SELECT day, year, month, COUNT(*), SUM(value) FROM data GROUP BY day,
year, month ORDER BY day` — one bucket per distinct day, ascending. -/
def dailyData (rs : List Record) : List DayBucket :=
  (sortKeys natLt (rs.map Record.dateKey)).map (dayBucketOf rs)

/-- One row of the weekly query: week key, year, count, `SUM(value)`. -/
structure WeekBucket where
  week : String
  year : ℕ
  rounds : ℕ
  totalValue : ℚ
deriving DecidableEq, Repr

def strLt (a b : String) : Bool := lexLt a.data b.data

def weekBucketOf (rs : List Record) (k : String) : WeekBucket :=
  let ms := rs.filter (fun r => weekKey r == k)
  ⟨k, ((ms.head?).map Record.y).getD 0, ms.length, (ms.map Record.value).sum⟩

/-- The weekly query of `updateCharts`: rows of the selected year grouped
by `STRFTIME '%Y-W%W'`, ordered by the week key string. -/
def weeklyData (rs : List Record) : List WeekBucket :=
  (sortKeys strLt (rs.map weekKey)).map (weekBucketOf rs)

/-- `Math.max(...dailyData.map(r => new Date(r.day)))` — the latest day
present in the store. -/
def latestDayKey (rs : List Record) : ℕ := (rs.map Record.dateKey).foldl max 0

/-- `JS Date.setMonth(getMonth() - n)` on the civil date a day key
encodes: subtract `n` months keeping the day of month, letting an
overflowing day spill into the following month exactly as the JS `Date`
normalization does. -/
def subMonthsKey (k : ℕ) (n : ℕ) : ℕ :=
  let t : ℤ := (k / 416 : ℤ) * 12 + (k / 32 % 13 : ℤ) - 1 - n
  let y : ℕ := (t.fdiv 12).toNat
  let m : ℕ := (t.emod 12).toNat + 1
  let d : ℕ := k % 32
  if d ≤ daysInMonth y m then (y * 13 + m) * 32 + d
  else if m = 12 then ((y + 1) * 13 + 1) * 32 + (d - daysInMonth y 12)
  else (y * 13 + (m + 1)) * 32 + (d - daysInMonth y m)

/-- Start of the trailing range: `startDate = latestDate; startDate.
setMonth(startDate.getMonth() - range)`. -/
def rangeStartKey (rs : List Record) (n : ℕ) : ℕ := subMonthsKey (latestDayKey rs) n

/-- The `selectedMonth` condition `SUBSTRING(time_str, 6, 2) = 'MM'`. -/
def monthMatches (f : FilterState) (r : Record) : Bool :=
  match f.month with
  | some m => r.m == m
  | none => true

/-- WHERE clause of the hourly query in `updateCharts` (second revision):
the range condition `time_str >= 'YYYY-MM-DD'` when a range is selected,
always the year condition `SUBSTRING(time_str, 1, 4) = selectedYear`, and
the month condition when a month is selected. -/
def hourlyPred (rs : List Record) (f : FilterState) (r : Record) : Bool :=
  (match f.range with
   | some n => decide (86400 * rangeStartKey rs n ≤ r.tsKey)
   | none => true) &&
  (r.y == f.year) && monthMatches f r

def hourlyMatching (rs : List Record) (f : FilterState) : List Record :=
  rs.filter (hourlyPred rs f)

/-- The hourly query result: `GROUP BY hour ORDER BY hour`, one `(hour,
COUNT(*))` row per hour that has matching records. -/
def hourlyGroups (rs : List Record) (f : FilterState) : List (ℕ × ℕ) :=
  (List.range 24).filterMap (fun h =>
    if ((hourlyMatching rs f).filter (fun r => r.hh == h)).length == 0 then none
    else some (h, ((hourlyMatching rs f).filter (fun r => r.hh == h)).length))

/-- `const hourlyRounds = Array(24).fill(0)` followed by
`hourlyData.forEach(row => { if (0 <= hour < 24) hourlyRounds[hour] =
row.rounds })`: the zero-filled 24-entry hourly profile. -/
def hourlyRounds (rs : List Record) (f : FilterState) : List ℕ :=
  (hourlyGroups rs f).foldl (fun acc p => acc.set p.1 p.2) (List.replicate 24 0)

/-- Day-bucket filtering in `updateCharts` when the view is daily: by the
trailing-range start when a range is selected, else by selected year and
(when set) month. -/
def dailyFiltered (rs : List Record) (f : FilterState) : List DayBucket :=
  match f.range with
  | some n => (dailyData rs).filter (fun b => decide (rangeStartKey rs n ≤ b.day))
  | none =>
      (dailyData rs).filter (fun b =>
        b.year == f.year && (match f.month with
          | some m => b.month == m
          | none => true))

/-- The bucket series the combined chart renders. -/
inductive Series where
  | weekly : List WeekBucket → Series
  | daily : List DayBucket → Series
deriving DecidableEq, Repr

def bucketSeries (rs : List Record) (f : FilterState) : Series :=
  if useWeekly f then Series.weekly (weeklyData (rs.filter (fun r => r.y == f.year)))
  else Series.daily (dailyFiltered rs f)

/-- Record-level form of the predicate the bucket series is filtered by. -/
def recordPred (rs : List Record) (f : FilterState) (r : Record) : Bool :=
  if useWeekly f then r.y == f.year
  else match f.range with
    | some n => decide (rangeStartKey rs n ≤ r.dateKey)
    | none => r.y == f.year && monthMatches f r

/-- In-range civil fields; every record the validator accepts satisfies
this, and the `check-data` Makefile target enforces the time part. -/
def Record.valid (r : Record) : Bool :=
  decide (1 ≤ r.m) && decide (r.m ≤ 12) && decide (1 ≤ r.d) && decide (r.d ≤ 31) &&
  decide (r.hh ≤ 23) && decide (r.mm ≤ 59) && decide (r.ss ≤ 59) && decide (r.y ≤ 9999)

/-- The year filter options: distinct years of the daily rollup, sorted
descending (`.sort((a, b) => b - a)`). -/
def yearsDesc (rs : List Record) : List ℕ :=
  sortKeys (fun a b => decide (b < a)) ((dailyData rs).map DayBucket.year)

/-- `yearSelect.value = '2025'` after populating the options: the constant
string `'2025'` is selected when it matches an option, otherwise the
select keeps no year selected. -/
def defaultSelectedYear (rs : List Record) : Option ℕ :=
  if 2025 ∈ yearsDesc rs then some 2025 else none

/-- The greatest year present among the records. -/
def latestYear (rs : List Record) : ℕ := (rs.map Record.y).foldl max 0

/-! ### Concrete inputs used by counterexamples and witnesses -/

/-- A raw day export as `bin/fake.js` writes it: header first, then rows. -/
def sampleFile : RawFile :=
  ⟨"2024-01-01.csv", ["time,strikes,length,value", "2024-01-01 03:00:00,0,360,12"]⟩

/-- A raw source holding a valid row and a row with a negative strike
count. -/
def mixedFile : RawFile :=
  ⟨"2024-01-01.csv", ["time,strikes,length,value", "2024-01-01 03:00:00,0,360,12",
    "2024-01-01 04:00:00,-1,360,12"]⟩

/-- A store already holding a May 2024 record. -/
def mayStore : List String := ["time,strikes,length,value", "2024-05-01 03:00:00,0,360,12"]

/-- A raw April 2024 export, internally ascending, rows on its own day. -/
def aprilFile : RawFile :=
  ⟨"2024-04-01.csv", ["time,strikes,length,value", "2024-04-01 03:00:00,0,360,12"]⟩

def novRecord : Record := ⟨2024, 11, 1, 5, 0, 0, 0, 360, 12⟩

def janRecord : Record := ⟨2025, 1, 15, 6, 10, 0, 1, 340, 13⟩

def rangeRecords : List Record := [novRecord, janRecord]

def rangeFilter : FilterState := ⟨2025, none, some 3⟩

def sundayRecord : Record := ⟨2023, 1, 1, 3, 0, 0, 0, 360, 12⟩

def mondayRecord : Record := ⟨2023, 1, 2, 3, 0, 0, 0, 360, 12⟩

def threeYearRecords : List Record :=
  [⟨2024, 1, 1, 3, 0, 0, 0, 360, 12⟩, ⟨2025, 1, 1, 3, 0, 0, 0, 360, 12⟩,
   ⟨2026, 1, 1, 3, 0, 0, 0, 360, 12⟩]

/-! ## Theorems -/

theorem lexLt_irrefl (l : List Char) : lexLt l l = false := by
  induction l with
  | nil => rfl
  | cons a as ih => simp [lexLt, ih]

theorem lexLt_asymm (l₁ l₂ : List Char) (h : lexLt l₁ l₂ = true) : lexLt l₂ l₁ = false := by
  induction l₁ generalizing l₂ with
  | nil =>
      cases l₂ with
      | nil => simp [lexLt] at h
      | cons b bs => rfl
  | cons a as ih =>
      cases l₂ with
      | nil => simp [lexLt] at h
      | cons b bs =>
          simp only [lexLt, Bool.or_eq_true, decide_eq_true_eq, Bool.and_eq_true,
            beq_iff_eq] at h
          simp only [lexLt, Bool.or_eq_false_iff, decide_eq_false_iff_not,
            Bool.and_eq_false_iff, beq_eq_false_iff_ne, ne_eq]
          rcases h with h | ⟨hab, h⟩
          · exact ⟨asymm h, Or.inl fun hba => absurd h (by simp [hba])⟩
          · subst hab
            exact ⟨lt_irrefl a, Or.inr (ih bs h)⟩

theorem lexLt_connex (l₁ l₂ : List Char) (h₁ : lexLt l₁ l₂ = false)
    (h₂ : lexLt l₂ l₁ = false) : l₁ = l₂ := by
  induction l₁ generalizing l₂ with
  | nil =>
      cases l₂ with
      | nil => rfl
      | cons b bs => simp [lexLt] at h₁
  | cons a as ih =>
      cases l₂ with
      | nil => simp [lexLt] at h₂
      | cons b bs =>
          simp only [lexLt, Bool.or_eq_false_iff, decide_eq_false_iff_not,
            Bool.and_eq_false_iff, beq_eq_false_iff_ne, ne_eq] at h₁ h₂
          have hab : a = b := by
            rcases h₁ with ⟨hnab, _⟩
            rcases h₂ with ⟨hnba, _⟩
            exact le_antisymm (not_lt.mp hnba) (not_lt.mp hnab)
          subst hab
          rcases h₁ with ⟨-, h₁⟩
          rcases h₂ with ⟨-, h₂⟩
          rcases h₁ with h₁ | h₁
          · exact absurd rfl h₁
          rcases h₂ with h₂ | h₂
          · exact absurd rfl h₂
          rw [ih bs h₁ h₂]

theorem lexLt_trans (a b c : List Char) (h₁ : lexLt a b = true) (h₂ : lexLt b c = true) :
    lexLt a c = true := by
  induction a generalizing b c with
  | nil =>
      cases b with
      | nil => simp [lexLt] at h₁
      | cons x xs =>
          cases c with
          | nil => simp [lexLt] at h₂
          | cons y ys => rfl
  | cons a as ih =>
      cases b with
      | nil => simp [lexLt] at h₁
      | cons x xs =>
          cases c with
          | nil => simp [lexLt] at h₂
          | cons y ys =>
              simp only [lexLt, Bool.or_eq_true, decide_eq_true_eq, Bool.and_eq_true,
                beq_iff_eq] at h₁ h₂ ⊢
              rcases h₁ with h₁ | ⟨rfl, h₁⟩
              · rcases h₂ with h₂ | ⟨rfl, h₂⟩
                · exact Or.inl (lt_trans h₁ h₂)
                · exact Or.inl h₁
              · rcases h₂ with h₂ | ⟨rfl, h₂⟩
                · exact Or.inl h₂
                · exact Or.inr ⟨rfl, ih xs ys h₁ h₂⟩

theorem lexLt_false_cases (a b : List Char) (h : lexLt a b = false) :
    lexLt b a = true ∨ a = b := by
  cases hba : lexLt b a with
  | true => exact Or.inl rfl
  | false => exact Or.inr (lexLt_connex a b h hba)

theorem mem_insertFile (g f : RawFile) (l : List RawFile) :
    g ∈ insertFile f l ↔ g = f ∨ g ∈ l := by
  induction l with
  | nil => simp [insertFile]
  | cons x xs ih =>
      simp only [insertFile]
      by_cases h : nameLt x f = true
      · simp [h, ih]; tauto
      · simp [h]

theorem insertFile_perm (f : RawFile) (l : List RawFile) :
    (insertFile f l).Perm (f :: l) := by
  induction l with
  | nil => simp [insertFile]
  | cons x xs ih =>
      simp only [insertFile]
      by_cases h : nameLt x f = true
      · simp only [h, if_true]
        exact ((ih.cons x).trans (List.Perm.swap f x xs)).symm.symm
      · simp [h]

theorem sortPool_perm (pool : List RawFile) : (sortPool pool).Perm pool := by
  induction pool with
  | nil => simp [sortPool]
  | cons f fs ih =>
      have : sortPool (f :: fs) = insertFile f (sortPool fs) := rfl
      rw [this]
      exact (insertFile_perm f (sortPool fs)).trans (ih.cons f)

theorem mem_sortPool (g : RawFile) (pool : List RawFile) :
    g ∈ sortPool pool ↔ g ∈ pool :=
  (sortPool_perm pool).mem_iff

theorem pairwise_insertFile (f : RawFile) (l : List RawFile)
    (h : l.Pairwise globLe) : (insertFile f l).Pairwise globLe := by
  induction l with
  | nil => simp [insertFile]
  | cons x xs ih =>
      simp only [insertFile]
      rcases List.pairwise_cons.mp h with ⟨hx, hxs⟩
      by_cases hc : nameLt x f = true
      · simp only [hc, if_true]
        refine List.pairwise_cons.mpr ⟨?_, ih hxs⟩
        intro y hy
        rcases (mem_insertFile y f xs).mp hy with rfl | hy
        · exact lexLt_asymm _ _ hc
        · exact hx y hy
      · simp only [hc, if_false]
        refine List.pairwise_cons.mpr ⟨?_, h⟩
        intro y hy
        rcases List.mem_cons.mp hy with rfl | hy
        · exact eq_false_of_ne_true hc
        · have hxy : globLe x y := hx y hy
          show nameLt y f = false
          cases hyf : nameLt y f with
          | false => rfl
          | true =>
              exfalso
              simp only [globLe, nameLt] at hxy hyf
              rcases lexLt_false_cases _ _ (eq_false_of_ne_true hc) with hfx | hfx
              · have := lexLt_trans _ _ _ hyf hfx
                rw [hxy] at this
                exact Bool.false_ne_true this
              · rw [← hfx] at hyf
                rw [hxy] at hyf
                exact Bool.false_ne_true hyf

theorem pairwise_sortPool (pool : List RawFile) : (sortPool pool).Pairwise globLe := by
  induction pool with
  | nil => simp [sortPool]
  | cons f fs ih => exact pairwise_insertFile f (sortPool fs) ih

theorem foldl_mergeMainStep (fs : List RawFile) (st : List String) :
    fs.foldl (mergeMainStep allOk) st = st ++ filesLines fs := by
  induction fs generalizing st with
  | nil => simp [filesLines]
  | cons f fs ih =>
      simp [mergeMainStep, allOk, filesLines, ih, List.append_assoc]

theorem foldl_mergeTestStep (ok : RawFile → Bool) (fs : List RawFile)
    (st : List String) (kept : List RawFile) :
    fs.foldl (mergeTestStep ok) (st, kept) =
      (st ++ filesTailLines ok fs, kept ++ fs.filter (fun f => !(ok f))) := by
  induction fs generalizing st kept with
  | nil => simp [filesTailLines]
  | cons f fs ih =>
      simp only [List.foldl_cons, mergeTestStep]
      by_cases h : ok f = true
      · simp [h, ih, filesTailLines, List.filter_cons, List.append_assoc]
      · simp only [h, if_false, Bool.false_eq_true]
        rw [ih]
        simp [h, filesTailLines, List.filter_cons, List.append_assoc]

theorem storeTimes_append (a b : List String) :
    storeTimes (a ++ b) = storeTimes a ++ storeTimes b :=
  List.filterMap_append a b _

example : parseRecord "2024-01-01 03:00:00,0,360,12" =
    some ⟨2024, 1, 1, 3, 0, 0, 0, 360, 12⟩ := by decide

example : parseRecord "time,strikes,length,value" = none := by decide

example : parseRecord "" = none := by decide

example : parseRecord "2024-01-01 03:00:00,-1,360,12" = none := by decide

theorem dval_le_nine (c : Char) (h : isDig c = true) : dval c ≤ 9 := by
  simp only [isDig, Bool.and_eq_true, decide_eq_true_eq] at h
  unfold dval
  omega

theorem digitsToNat_two (a b : Char) :
    digitsToNat [a, b] = dval a * 10 + dval b := by
  simp [digitsToNat]

theorem digitsToNat_four (a b c d : Char) :
    digitsToNat [a, b, c, d] = ((dval a * 10 + dval b) * 10 + dval c) * 10 + dval d := by
  simp [digitsToNat]

theorem digitsToNat_two_le (a b : Char) (ha : isDig a = true) (hb : isDig b = true) :
    digitsToNat [a, b] ≤ 99 := by
  have h1 := dval_le_nine a ha
  have h2 := dval_le_nine b hb
  rw [digitsToNat_two]
  omega

theorem digitsToNat_four_le (a b c d : Char) (ha : isDig a = true) (hb : isDig b = true)
    (hc : isDig c = true) (hd : isDig d = true) :
    digitsToNat [a, b, c, d] ≤ 9999 := by
  have h1 := dval_le_nine a ha
  have h2 := dval_le_nine b hb
  have h3 := dval_le_nine c hc
  have h4 := dval_le_nine d hd
  rw [digitsToNat_four]
  omega

theorem parseTs_bounds (cs : List Char) (y mo da ho mi se : ℕ)
    (h : parseTs cs = some (y, mo, da, ho, mi, se)) :
    y ≤ 9999 ∧ 1 ≤ mo ∧ mo ≤ 12 ∧ 1 ≤ da ∧ da ≤ 31 ∧ ho ≤ 23 ∧ mi ≤ 59 ∧ se ≤ 59 := by
  unfold parseTs at h
  split at h
  · rename_i y1 y2 y3 y4 m1 m2 d1 d2 h1 h2 n1 n2 s1 s2
    split at h
    · rename_i hdig
      split at h
      · rename_i hb
        simp only [Option.some.injEq, Prod.mk.injEq] at h
        obtain ⟨rfl, rfl, rfl, rfl, rfl, rfl⟩ := h
        simp only [List.all_cons, List.all_nil, Bool.and_eq_true] at hdig
        obtain ⟨hy1, hy2, hy3, hy4, -⟩ := hdig
        exact ⟨digitsToNat_four_le y1 y2 y3 y4 hy1 hy2 hy3 hy4, hb.1, hb.2.1, hb.2.2.1,
          hb.2.2.2.1, hb.2.2.2.2.1, hb.2.2.2.2.2.1, hb.2.2.2.2.2.2⟩
      · exact Option.noConfusion h
    · exact Option.noConfusion h
  · exact Option.noConfusion h

theorem parseRecord_valid (l : String) (r : Record) (h : parseRecord l = some r) :
    r.valid = true := by
  unfold parseRecord at h
  split at h
  · split at h
    · rename_i y mo da ho mi se st ln v hts hst hln hv
      split at h
      · simp only [Option.some.injEq] at h
        subst h
        have hb := parseTs_bounds _ _ _ _ _ _ _ hts
        simp only [Record.valid, Bool.and_eq_true, decide_eq_true_eq]
        refine ⟨⟨⟨⟨⟨⟨⟨?_, ?_⟩, ?_⟩, ?_⟩, ?_⟩, ?_⟩, ?_⟩, ?_⟩ <;> omega
      · exact Option.noConfusion h
    · exact Option.noConfusion h
  · exact Option.noConfusion h

theorem tsKey_day_bounds (r : Record) (h1 : r.hh ≤ 23) (h2 : r.mm ≤ 59) (h3 : r.ss ≤ 59) :
    r.dateKey * 86400 ≤ r.tsKey ∧ r.tsKey < (r.dateKey + 1) * 86400 := by
  unfold Record.tsKey
  omega

theorem dateKey_lt_iff (r₁ r₂ : Record) (hm₁ : r₁.m ≤ 12) (hd₁ : r₁.d ≤ 31)
    (hm₂ : r₂.m ≤ 12) (hd₂ : r₂.d ≤ 31) :
    r₁.dateKey < r₂.dateKey ↔
      (r₁.y < r₂.y ∨ (r₁.y = r₂.y ∧ (r₁.m < r₂.m ∨ (r₁.m = r₂.m ∧ r₁.d < r₂.d)))) := by
  unfold Record.dateKey
  omega

theorem mem_joinL {α : Type} (L : List (List α)) (y : α) (h : y ∈ joinL L) :
    ∃ b ∈ L, y ∈ b := by
  induction L with
  | nil => simp [joinL] at h
  | cons b bs ih =>
      simp only [joinL, List.mem_append] at h
      rcases h with h | h
      · exact ⟨b, List.mem_cons_self b bs, h⟩
      · obtain ⟨c, hc, hyc⟩ := ih h
        exact ⟨c, List.mem_cons_of_mem b hc, hyc⟩

theorem pairwise_joinL {α : Type} (R : α → α → Prop) (L : List (List α))
    (hall : ∀ b ∈ L, b.Pairwise R)
    (hcross : L.Pairwise (fun a b => ∀ x ∈ a, ∀ y ∈ b, R x y)) :
    (joinL L).Pairwise R := by
  induction L with
  | nil => simp [joinL]
  | cons b bs ih =>
      simp only [joinL]
      rw [List.pairwise_append]
      rcases List.pairwise_cons.mp hcross with ⟨hb, hbs⟩
      refine ⟨hall b (List.mem_cons_self b bs),
        ih (fun x hx => hall x (List.mem_cons_of_mem b hx)) hbs, ?_⟩
      intro x hx y hy
      obtain ⟨c, hc, hyc⟩ := mem_joinL bs y hy
      exact hb c hc x hx y hyc

theorem storeTimes_blank : storeTimes [""] = [] := rfl

theorem storeTimes_filesLines (fs : List RawFile) :
    storeTimes (filesLines fs) = joinL (fs.map (fun f => storeTimes f.lines)) := by
  induction fs with
  | nil => rfl
  | cons f fs ih =>
      simp only [filesLines, joinL, List.map_cons]
      rw [storeTimes_append, storeTimes_append, ih, storeTimes_blank]
      simp [List.append_assoc]

/-- C8: running either merge script against an existing store with an
empty pending pool is a no-op: the canonical store is byte-for-byte
unchanged, zero sources are processed, zero lines are appended, and the
run exits 0 (zero-work success), never an error. -/
theorem empty_pool_consolidation_noop (ok : RawFile → Bool) (store : List String) :
    mergeMain ok true ⟨store, []⟩ = ⟨store, [], 0, 0, 0⟩ ∧
    mergeTest ok true ⟨store, []⟩ = ⟨store, [], 0, 0, 0⟩ :=
  ⟨rfl, rfl⟩

/-- C2 counterexample: a raw source holding one valid row and one row with
a negative strike count (which the Record constraints reject).  The merge
nevertheless appends its rows — the store afterwards carries a record
originating from the malformed source — and removes the source from the
pending pool instead of leaving it pending. -/
theorem no_validation_cex :
    parseRecord "2024-01-01 04:00:00,-1,360,12" = none ∧
    (mergeMain allOk true ⟨[], [mixedFile]⟩).pending = [] ∧
    storeTimes (mergeMain allOk true ⟨[], [mixedFile]⟩).store ≠ [] := by decide

/-- C2 amended: the merge performs no validation at all.  Whatever the
pending sources contain — including rows violating the Record
constraints — `bin/merge.sh` appends every source's full contents (plus a
blank separator) in glob order, removes every source, and reports no
error. -/
theorem consolidate_appends_without_validation (s : MergeState) :
    (mergeMain allOk true s).pending = [] ∧
    (mergeMain allOk true s).store = s.store ++ filesLines (sortPool s.pending) ∧
    (mergeMain allOk true s).exitCode = 0 := by
  by_cases h : s.pending.isEmpty
  · have hp : s.pending = [] := by
      cases hs : s.pending with
      | nil => rfl
      | cons a l => rw [hs] at h; simp at h
    unfold mergeMain
    simp [h, hp, sortPool, filesLines]
  · unfold mergeMain
    simp [h, foldl_mergeMainStep]

/-- C5 counterexample: when the append of a source fails, `bin/merge.sh`
still removes it — the `rm` is not `&&`-chained.  Afterwards the pool is
empty although no line of the source reached the store (only the blank
separator line of the unconditional `echo` did). -/
theorem unconditional_remove_cex :
    (mergeMain noOk true ⟨["time,strikes,length,value"], [sampleFile]⟩).pending = [] ∧
    (mergeMain noOk true ⟨["time,strikes,length,value"], [sampleFile]⟩).store =
      ["time,strikes,length,value", ""] := by decide

/-- C5 amended: only the test variant (`&&`-chained `rm`) removes a source
strictly after its append succeeded: a source whose append fails stays in
the pending pool, available for inspection and retry.  (`bin/merge.sh`
removes unconditionally — see the counterexample.) -/
theorem mergeTest_keeps_failed_source (ok : RawFile → Bool) (s : MergeState) (f : RawFile)
    (hf : f ∈ s.pending) (hok : ok f = false) :
    f ∈ (mergeTest ok true s).pending := by
  have hne : s.pending.isEmpty = false := by
    cases hs : s.pending with
    | nil => rw [hs] at hf; simp at hf
    | cons a l => rfl
  unfold mergeTest
  rw [foldl_mergeTestStep]
  simp only [hne, Bool.not_true, Bool.false_eq_true, if_false, List.nil_append]
  exact List.mem_filter.mpr ⟨(mem_sortPool f s.pending).mpr hf, by simp [hok]⟩

/-- Witness for the C5 amended theorem at a concrete failing source. -/
theorem mergeTest_keeps_failed_source_witness :
    sampleFile ∈ (⟨[], [sampleFile]⟩ : MergeState).pending ∧ noOk sampleFile = false ∧
    sampleFile ∈ (mergeTest noOk true ⟨[], [sampleFile]⟩).pending :=
  ⟨by decide, rfl, mergeTest_keeps_failed_source noOk ⟨[], [sampleFile]⟩ sampleFile (by decide) rfl⟩

/-- C1 counterexample: `bin/merge.sh` appends raw sources whole, so the
header row of a consolidated source lands in the canonical store: starting
from a store with one header line, merging one header-led source leaves
two header rows in the store. -/
theorem header_appended_cex :
    isHeaderRow "time,strikes,length,value" = true ∧
    headerCount (mergeMain allOk true
      ⟨["time,strikes,length,value"], [sampleFile]⟩).store = 2 := by decide

theorem mem_filesTailLines (ok : RawFile → Bool) (fs : List RawFile) (l : String)
    (hl : l ∈ filesTailLines ok fs) :
    l = "" ∨ ∃ f ∈ fs, l ∈ f.lines.drop 1 := by
  induction fs with
  | nil => simp [filesTailLines] at hl
  | cons f fs ih =>
      simp only [filesTailLines, List.mem_append] at hl
      rcases hl with hl | hl
      · by_cases hf : ok f = true
        · rw [if_pos hf] at hl
          rcases List.mem_append.mp hl with hl | hl
          · exact Or.inr ⟨f, List.mem_cons_self f fs, hl⟩
          · simp only [List.mem_singleton] at hl
            exact Or.inl hl
        · rw [if_neg hf] at hl
          simp at hl
      · rcases ih hl with h | ⟨g, hg, hlg⟩
        · exact Or.inl h
        · exact Or.inr ⟨g, List.mem_cons_of_mem f hg, hlg⟩

/-- C1 amended: header removal is positional, not structural.  The test
variant drops exactly the first line of each source (`tail -n +2`), so
provided every pending source carries header rows only as its first line,
consolidation adds no header row to the canonical store.  (`bin/merge.sh`
appends headers — see the counterexample.) -/
theorem mergeTest_header_free (s : MergeState)
    (h : ∀ f ∈ s.pending, ∀ l ∈ f.lines.drop 1, isHeaderRow l = false) :
    headerCount (mergeTest allOk true s).store = headerCount s.store := by
  by_cases hp : s.pending.isEmpty
  · unfold mergeTest
    simp [hp]
  · unfold mergeTest
    rw [foldl_mergeTestStep]
    simp only [hp, Bool.not_true, Bool.false_eq_true, if_false]
    unfold headerCount
    rw [List.filter_append, List.length_append]
    have hz : (filesTailLines allOk (sortPool s.pending)).filter isHeaderRow = [] := by
      rw [List.filter_eq_nil_iff]
      intro l hl
      rcases mem_filesTailLines allOk (sortPool s.pending) l hl with rfl | ⟨f, hf, hlf⟩
      · simp [isHeaderRow]
      · rw [h f ((mem_sortPool f s.pending).mp hf) l hlf]
        simp
    rw [hz]
    rfl

/-- Witness for the C1 amended theorem on a header-led source. -/
theorem mergeTest_header_free_witness :
    (∀ f ∈ (⟨["time,strikes,length,value"], [sampleFile]⟩ : MergeState).pending,
      ∀ l ∈ f.lines.drop 1, isHeaderRow l = false) ∧
    headerCount (mergeTest allOk true ⟨["time,strikes,length,value"], [sampleFile]⟩).store =
      headerCount (⟨["time,strikes,length,value"], [sampleFile]⟩ : MergeState).store :=
  ⟨by decide, mergeTest_header_free _ (by decide)⟩

/-- C3: the granularity policy of `updateCharts` (`useWeekly = !range &&
!selectedMonth`): a trailing range forces Day, a selected month without a
range forces Day, and a full-year view (no range, no month) uses Week; in
particular a trailing-range view never uses the weekly rollup. -/
theorem granularity_policy (f : FilterState) :
    (f.range.isSome = true → selectGranularity f = Granularity.Day) ∧
    (f.range = none → f.month.isSome = true → selectGranularity f = Granularity.Day) ∧
    (f.range = none → f.month = none → selectGranularity f = Granularity.Week) := by
  unfold selectGranularity useWeekly
  rcases hr : f.range with _ | n <;> rcases hm : f.month with _ | m <;> simp [hr, hm]

/-- Witness for C3 at the three spec scenarios. -/
theorem granularity_policy_witness :
    selectGranularity ⟨2024, none, some 3⟩ = Granularity.Day ∧
    selectGranularity ⟨2024, some 3, none⟩ = Granularity.Day ∧
    selectGranularity ⟨2024, none, none⟩ = Granularity.Week :=
  ⟨(granularity_policy ⟨2024, none, some 3⟩).1 rfl,
   (granularity_policy ⟨2024, some 3, none⟩).2.1 rfl rfl,
   (granularity_policy ⟨2024, none, none⟩).2.2 rfl rfl⟩

/-- C9 counterexample: with records from 2024, 2025 and 2026 in the store,
the year select defaults to the hardcoded 2025, not to the latest year
present (2026). -/
theorem default_year_cex :
    defaultSelectedYear threeYearRecords = some 2025 ∧
    latestYear threeYearRecords = 2026 ∧
    defaultSelectedYear threeYearRecords ≠ some (latestYear threeYearRecords) := by decide

/-- C9 amended: after populating the year options, `app.js` assigns the
constant `'2025'` (`yearSelect.value = '2025'`): the default year is 2025
whenever 2025 is among the store's years — regardless of any later year —
and no year is selected otherwise. -/
theorem default_year_constant (rs : List Record) :
    (2025 ∈ yearsDesc rs → defaultSelectedYear rs = some 2025) ∧
    (2025 ∉ yearsDesc rs → defaultSelectedYear rs = none) := by
  unfold defaultSelectedYear
  constructor <;> intro h <;> simp [h]

/-- Witness for C9 amended. -/
theorem default_year_constant_witness :
    2025 ∈ yearsDesc threeYearRecords ∧
    defaultSelectedYear threeYearRecords = some 2025 :=
  ⟨by decide, (default_year_constant threeYearRecords).1 (by decide)⟩

/-- C4 counterexample: store with a November 2024 and a January 2025
record, filter `{year := 2025, month := none, range := 3 months}`.  The
trailing range starts 2024-10-15, so the November record matches the
range predicate and its day bucket is kept (2 buckets), yet the hourly
query — whose WHERE clause always also carries `SUBSTRING(time_str, 1, 4)
= selectedYear` — drops it: hour 5 reports 0 although one range-matching
record lies in hour 5.  The year field is therefore not ignored by the
hourly aggregation. -/
theorem hourly_uses_year_in_range_mode_cex :
    rangeFilter.range = some 3 ∧
    (dailyFiltered rangeRecords rangeFilter).length = 2 ∧
    ((rangeRecords.filter (fun r =>
        decide (86400 * rangeStartKey rangeRecords 3 ≤ r.tsKey))).filter
      (fun r => r.hh == 5)).length = 1 ∧
    (hourlyRounds rangeRecords rangeFilter).getD 5 0 = 0 := by decide

/-- C4 amended: in range mode the day buckets are filtered by the
trailing-range predicate alone (year and month play no part there), but
the hourly profile's predicate additionally requires the record's year to
equal the selected year and, when a month is selected, the record's month
to equal it. -/
theorem range_mode_predicates (rs : List Record) (f : FilterState) (n : ℕ)
    (hr : f.range = some n) :
    (∀ b : DayBucket, b ∈ dailyFiltered rs f ↔
      b ∈ dailyData rs ∧ rangeStartKey rs n ≤ b.day) ∧
    (∀ r : Record, hourlyPred rs f r = true ↔
      (86400 * rangeStartKey rs n ≤ r.tsKey ∧ r.y = f.year ∧
        ∀ m, f.month = some m → r.m = m)) := by
  constructor
  · intro b
    unfold dailyFiltered
    rw [hr]
    simp [List.mem_filter]
  · intro r
    unfold hourlyPred
    rw [hr]
    rcases hm : f.month with _ | m
    · simp [monthMatches, hm, Bool.and_eq_true, decide_eq_true_eq, beq_iff_eq]
    · simp [monthMatches, hm, Bool.and_eq_true, decide_eq_true_eq, beq_iff_eq]
      tauto

/-- Witness for C4 amended at a concrete store, filter, bucket and record. -/
theorem range_mode_predicates_witness :
    rangeFilter.range = some 3 ∧
    (dayBucketOf rangeRecords novRecord.dateKey ∈ dailyFiltered rangeRecords rangeFilter ↔
      dayBucketOf rangeRecords novRecord.dateKey ∈ dailyData rangeRecords ∧
        rangeStartKey rangeRecords 3 ≤ (dayBucketOf rangeRecords novRecord.dateKey).day) ∧
    (hourlyPred rangeRecords rangeFilter novRecord = true ↔
      (86400 * rangeStartKey rangeRecords 3 ≤ novRecord.tsKey ∧
        novRecord.y = rangeFilter.year ∧
        ∀ m, rangeFilter.month = some m → novRecord.m = m)) :=
  ⟨rfl,
   (range_mode_predicates rangeRecords rangeFilter 3 rfl).1 (dayBucketOf rangeRecords novRecord.dateKey),
   (range_mode_predicates rangeRecords rangeFilter 3 rfl).2 novRecord⟩

theorem foldl_set_length (ps : List (ℕ × ℕ)) (acc : List ℕ) :
    (ps.foldl (fun a p => a.set p.1 p.2) acc).length = acc.length := by
  induction ps generalizing acc with
  | nil => rfl
  | cons p ps ih => simp [ih, List.length_set]

theorem set_getD_self (l : List ℕ) (i v : ℕ) (h : i < l.length) :
    (l.set i v).getD i 0 = v := by
  induction l generalizing i with
  | nil => simp at h
  | cons a l ih =>
      cases i with
      | zero => rfl
      | succ i =>
          simp only [List.set_cons_succ, List.getD_cons_succ]
          refine ih i ?_
          simp only [List.length_cons] at h
          omega

theorem set_getD_ne (l : List ℕ) (i j v : ℕ) (h : i ≠ j) :
    (l.set i v).getD j 0 = l.getD j 0 := by
  induction l generalizing i j with
  | nil => rfl
  | cons a l ih =>
      cases i with
      | zero =>
          cases j with
          | zero => exact absurd rfl h
          | succ j => rfl
      | succ i =>
          cases j with
          | zero => rfl
          | succ j =>
              simp only [List.set_cons_succ, List.getD_cons_succ]
              exact ih i j (fun e => h (by rw [e]))

theorem foldl_set_untouched (ps : List (ℕ × ℕ)) (acc : List ℕ) (h : ℕ)
    (hne : ∀ p ∈ ps, p.1 ≠ h) :
    (ps.foldl (fun a p => a.set p.1 p.2) acc).getD h 0 = acc.getD h 0 := by
  induction ps generalizing acc with
  | nil => rfl
  | cons p ps ih =>
      simp only [List.foldl_cons]
      rw [ih _ (fun q hq => hne q (List.mem_cons_of_mem p hq))]
      exact set_getD_ne acc p.1 h p.2 (hne p (List.mem_cons_self p ps))

theorem replicate_zero_getD (n h : ℕ) : (List.replicate n (0 : ℕ)).getD h 0 = 0 := by
  induction n generalizing h with
  | zero => cases h <;> rfl
  | succ n ih =>
      cases h with
      | zero => rfl
      | succ h =>
          rw [List.replicate_succ, List.getD_cons_succ]
          exact ih h

theorem keys_sublist {β : Type} (g : ℕ → Option (ℕ × β))
    (hg : ∀ a p, g a = some p → p.1 = a) (l : List ℕ) :
    ((l.filterMap g).map Prod.fst).Sublist l := by
  induction l with
  | nil => simp
  | cons a l ih =>
      rw [List.filterMap_cons]
      cases hga : g a with
      | none => exact ih.cons a
      | some p =>
          simp only [List.map_cons]
          rw [hg a p hga]
          exact ih.cons₂ a

theorem mem_hourlyGroups (rs : List Record) (f : FilterState) (p : ℕ × ℕ) :
    p ∈ hourlyGroups rs f ↔ p.1 ∈ List.range 24 ∧
      ((hourlyMatching rs f).filter (fun r => r.hh == p.1)).length = p.2 ∧ p.2 ≠ 0 := by
  unfold hourlyGroups
  rw [List.mem_filterMap]
  constructor
  · rintro ⟨a, ha, hfa⟩
    by_cases hca : ((hourlyMatching rs f).filter (fun r => r.hh == a)).length = 0
    · rw [if_pos (by simpa using hca)] at hfa
      exact Option.noConfusion hfa
    · rw [if_neg (by simpa using hca)] at hfa
      simp only [Option.some.injEq] at hfa
      subst hfa
      exact ⟨ha, rfl, hca⟩
  · rintro ⟨h1, h2, h3⟩
    refine ⟨p.1, h1, ?_⟩
    rw [if_neg (by simp [h2, h3])]
    simp only [Option.some.injEq]
    exact Prod.ext rfl h2

theorem hourlyGroups_keys_nodup (rs : List Record) (f : FilterState) :
    ((hourlyGroups rs f).map Prod.fst).Nodup := by
  have hsub : ((hourlyGroups rs f).map Prod.fst).Sublist (List.range 24) := by
    unfold hourlyGroups
    apply keys_sublist
    intro a p hap
    by_cases hca : ((hourlyMatching rs f).filter (fun r => r.hh == a)).length = 0
    · rw [if_pos (by simpa using hca)] at hap
      exact Option.noConfusion hap
    · rw [if_neg (by simpa using hca)] at hap
      simp only [Option.some.injEq] at hap
      rw [← hap]
  exact hsub.nodup (List.nodup_range 24)

theorem hourlyRounds_length (rs : List Record) (f : FilterState) :
    (hourlyRounds rs f).length = 24 := by
  unfold hourlyRounds
  rw [foldl_set_length]
  simp

theorem hourlyRounds_getD (rs : List Record) (f : FilterState) (h : ℕ) (hlt : h < 24) :
    (hourlyRounds rs f).getD h 0 =
      ((hourlyMatching rs f).filter (fun r => r.hh == h)).length := by
  unfold hourlyRounds
  by_cases hc : ((hourlyMatching rs f).filter (fun r => r.hh == h)).length = 0
  · rw [foldl_set_untouched]
    · rw [replicate_zero_getD, hc]
    · intro p hp he
      rcases (mem_hourlyGroups rs f p).mp hp with ⟨-, h2, h3⟩
      rw [he, hc] at h2
      exact h3 h2.symm
  · have hmem : (h, ((hourlyMatching rs f).filter (fun r => r.hh == h)).length)
        ∈ hourlyGroups rs f :=
      (mem_hourlyGroups rs f _).mpr ⟨List.mem_range.mpr hlt, rfl, hc⟩
    obtain ⟨s, t, hst⟩ := List.append_of_mem hmem
    rw [hst, List.foldl_append]
    have hnd := hourlyGroups_keys_nodup rs f
    rw [hst, List.map_append, List.nodup_append] at hnd
    have hht : ∀ p ∈ t, p.1 ≠ h := by
      intro p hp he
      rcases List.nodup_cons.mp hnd.2.1 with ⟨hnotin, -⟩
      have hmt : p.1 ∈ t.map Prod.fst := List.mem_map_of_mem Prod.fst hp
      rw [he] at hmt
      exact hnotin hmt
    rw [List.foldl_cons, foldl_set_untouched t _ h hht]
    apply set_getD_self
    rw [foldl_set_length]
    simpa using hlt

theorem mem_insKey {α : Type} (lt : α → α → Bool) (x k : α) (l : List α)
    (h : x ∈ insKey lt k l) : x = k ∨ x ∈ l := by
  induction l with
  | nil => simpa [insKey] using h
  | cons y ys ih =>
      simp only [insKey] at h
      by_cases h1 : lt y k = true
      · rw [if_pos h1] at h
        rcases List.mem_cons.mp h with rfl | h
        · exact Or.inr (List.mem_cons_self x ys)
        · rcases ih h with h | h
          · exact Or.inl h
          · exact Or.inr (List.mem_cons_of_mem y h)
      · rw [if_neg h1] at h
        by_cases h2 : lt k y = true
        · rw [if_pos h2] at h
          rcases List.mem_cons.mp h with rfl | h
          · exact Or.inl rfl
          · exact Or.inr h
        · rw [if_neg h2] at h
          exact Or.inr h

theorem mem_sortKeys {α : Type} (lt : α → α → Bool) (ks : List α) (x : α)
    (h : x ∈ sortKeys lt ks) : x ∈ ks := by
  unfold sortKeys at h
  suffices haux : ∀ (acc : List α), x ∈ ks.foldl (fun acc k => insKey lt k acc) acc →
      x ∈ acc ∨ x ∈ ks by
    rcases haux [] h with hx | hx
    · simp at hx
    · exact hx
  clear h
  induction ks with
  | nil => intro acc h; exact Or.inl h
  | cons k ks ih =>
      intro acc h
      rcases ih (insKey lt k acc) h with hx | hx
      · rcases mem_insKey lt x k acc hx with rfl | hx
        · exact Or.inr (List.mem_cons_self x ks)
        · exact Or.inl hx
      · exact Or.inr (List.mem_cons_of_mem k hx)

theorem mem_dailyData (rs : List Record) (b : DayBucket) (hb : b ∈ dailyData rs) :
    ∃ r ∈ rs, b = dayBucketOf rs r.dateKey ∧ b.day = r.dateKey := by
  unfold dailyData at hb
  rcases List.mem_map.mp hb with ⟨k, hk, hbk⟩
  have hk' := mem_sortKeys natLt _ k hk
  rcases List.mem_map.mp hk' with ⟨r, hr, hrk⟩
  subst hrk
  exact ⟨r, hr, hbk.symm, by rw [← hbk]; rfl⟩

theorem dateKey_div_facts (r : Record) (hv : r.valid = true) :
    r.dateKey / 416 = r.y ∧ r.dateKey / 32 % 13 = r.m := by
  simp only [Record.valid, Bool.and_eq_true, decide_eq_true_eq] at hv
  unfold Record.dateKey
  omega

/-- C7: for every filter state and record set, the hourly profile has
exactly 24 entries, one per hour 0–23; entry `h` is the (non-negative)
count of matching records in hour `h`, hence `0` for hours with no
matching records; and when nothing matches the predicate, the profile is
all zeros and the bucket series is empty — the aggregation never fails. -/
theorem aggregate_hourly_profile (rs : List Record) (f : FilterState)
    (hv : ∀ r ∈ rs, r.valid = true) :
    (hourlyRounds rs f).length = 24 ∧
    (∀ h, h < 24 → (hourlyRounds rs f).getD h 0 =
      ((hourlyMatching rs f).filter (fun r => r.hh == h)).length) ∧
    (rs.filter (hourlyPred rs f) = [] → hourlyRounds rs f = List.replicate 24 0) ∧
    (rs.filter (recordPred rs f) = [] →
      bucketSeries rs f = if useWeekly f then Series.weekly [] else Series.daily []) := by
  refine ⟨hourlyRounds_length rs f, hourlyRounds_getD rs f, ?_, ?_⟩
  · intro hemp
    have hm : hourlyMatching rs f = [] := by
      unfold hourlyMatching
      exact hemp
    have hg : hourlyGroups rs f = [] := by
      simp [hourlyGroups, hm]
    unfold hourlyRounds
    rw [hg]
    rfl
  · intro hemp
    have hforall : ∀ r ∈ rs, recordPred rs f r = false := by
      intro r hr
      cases hfr : recordPred rs f r with
      | false => rfl
      | true =>
          exfalso
          have hmem : r ∈ rs.filter (recordPred rs f) := List.mem_filter.mpr ⟨hr, hfr⟩
          rw [hemp] at hmem
          simp at hmem
    unfold bucketSeries
    by_cases hw : useWeekly f = true
    · rw [if_pos hw, if_pos hw]
      have hfy : rs.filter (fun r => r.y == f.year) = [] := by
        rw [List.filter_eq_nil_iff]
        intro r hr hpred
        have hf := hforall r hr
        unfold recordPred at hf
        rw [if_pos hw] at hf
        rw [hpred] at hf
        exact Bool.noConfusion hf
      rw [hfy]
      rfl
    · have hw' : useWeekly f = false := eq_false_of_ne_true hw
      rw [if_neg hw, if_neg hw]
      unfold dailyFiltered
      rcases hr : f.range with _ | n
      · simp only [hr]
        have hempty : (dailyData rs).filter (fun b =>
            b.year == f.year && (match f.month with
              | some m => b.month == m
              | none => true)) = [] := by
          rw [List.filter_eq_nil_iff]
          intro b hb hpred
          obtain ⟨r, hrin, hbof, hday⟩ := mem_dailyData rs b hb
          obtain ⟨hy, hm⟩ := dateKey_div_facts r (hv r hrin)
          have hby : b.year = r.y := by
            rw [hbof]
            show r.dateKey / 416 = r.y
            exact hy
          have hbm : b.month = r.m := by
            rw [hbof]
            show r.dateKey / 32 % 13 = r.m
            exact hm
          have hf := hforall r hrin
          simp only [recordPred, hw', Bool.false_eq_true, if_false, hr,
            monthMatches] at hf
          rcases hmo : f.month with _ | m
          · simp only [hmo, Bool.and_true] at hf hpred
            rw [hby] at hpred
            rw [hpred] at hf
            exact Bool.noConfusion hf
          · simp only [hmo] at hf hpred
            rw [hby, hbm] at hpred
            rw [hpred] at hf
            exact Bool.noConfusion hf
        rw [hempty]
      · simp only [hr]
        have hempty : (dailyData rs).filter (fun b =>
            decide (rangeStartKey rs n ≤ b.day)) = [] := by
          rw [List.filter_eq_nil_iff]
          intro b hb hpred
          obtain ⟨r, hrin, hbof, hday⟩ := mem_dailyData rs b hb
          have hf := hforall r hrin
          simp only [recordPred, hw', Bool.false_eq_true, if_false, hr] at hf
          rw [hday] at hpred
          rw [hpred] at hf
          exact Bool.noConfusion hf
        rw [hempty]

/-- Witness for C7 on the empty store with the full-year filter. -/
theorem aggregate_hourly_profile_witness :
    (hourlyRounds [] ⟨2024, none, none⟩).length = 24 ∧
    (hourlyRounds [] ⟨2024, none, none⟩).getD 5 0 =
      ((hourlyMatching [] ⟨2024, none, none⟩).filter (fun r => r.hh == 5)).length ∧
    hourlyRounds [] ⟨2024, none, none⟩ = List.replicate 24 0 ∧
    bucketSeries [] ⟨2024, none, none⟩ =
      (if useWeekly ⟨2024, none, none⟩ then Series.weekly [] else Series.daily []) := by
  have hthm := aggregate_hourly_profile [] ⟨2024, none, none⟩ (by simp)
  exact ⟨hthm.1, hthm.2.1 5 (by decide), hthm.2.2.1 rfl, hthm.2.2.2 rfl⟩

theorem dc_inj (a b : ℕ) (ha : a ≤ 9) (hb : b ≤ 9) (h : dc a = dc b) : a = b := by
  revert h
  interval_cases a <;> interval_cases b <;> decide

theorem pad2ch_inj (a b : ℕ) (ha : a ≤ 99) (hb : b ≤ 99) (h : pad2ch a = pad2ch b) :
    a = b := by
  unfold pad2ch at h
  simp only [List.cons.injEq, and_true] at h
  obtain ⟨h1, h2⟩ := h
  have e1 := dc_inj _ _ (by omega) (by omega) h1
  have e2 := dc_inj _ _ (by omega) (by omega) h2
  omega

theorem pad4ch_inj (a b : ℕ) (ha : a ≤ 9999) (hb : b ≤ 9999) (h : pad4ch a = pad4ch b) :
    a = b := by
  unfold pad4ch at h
  obtain ⟨h1, h2⟩ := List.append_inj h rfl
  have e1 := pad2ch_inj _ _ (by omega) (by omega) h1
  have e2 := pad2ch_inj _ _ (by omega) (by omega) h2
  omega

theorem monthDaysBefore_le (y m : ℕ) (hm : m ≤ 12) : monthDaysBefore y m ≤ 335 := by
  interval_cases m <;> cases hl : leapYear y <;>
    simp [monthDaysBefore, daysInMonth, hl, List.range_succ]

theorem mweek_le (y m d : ℕ) (hm : m ≤ 12) (hd : d ≤ 31) : mweek y m d ≤ 53 := by
  have h1 : dayOfYear y m d ≤ 366 := by
    unfold dayOfYear
    have := monthDaysBefore_le y m hm
    omega
  have h2 : (weekdaySun0 y m d + 6) % 7 ≤ 6 :=
    Nat.le_of_lt_succ (Nat.mod_lt _ (by norm_num))
  unfold mweek
  omega

/-- C6 counterexample: `2023-01-01` (a Sunday) and `2023-01-02` both lie
in the first Jan-1-aligned 7-day span of 2023 (the spec's week 1), yet
the `STRFTIME '%Y-W%W'` key the code groups by assigns them different
weeks: `2023-W00` and `2023-W01`. -/
theorem week_key_not_jan_aligned_cex :
    sundayRecord.y = mondayRecord.y ∧
    janWeek sundayRecord.y sundayRecord.m sundayRecord.d =
      janWeek mondayRecord.y mondayRecord.m mondayRecord.d ∧
    weekKey sundayRecord ≠ weekKey mondayRecord := by decide

/-- C6 amended: the weekly key is `%Y-W%W`, where `%W` counts
Monday-aligned weeks: week 1 starts at the year's first Monday and days
before it fall in week 0.  Two valid records share a week key exactly
when they share the year and the Monday-aligned week number. -/
theorem weekKey_eq_iff (r₁ r₂ : Record) (h₁ : r₁.valid = true) (h₂ : r₂.valid = true) :
    weekKey r₁ = weekKey r₂ ↔
      (r₁.y = r₂.y ∧ mweek r₁.y r₁.m r₁.d = mweek r₂.y r₂.m r₂.d) := by
  simp only [Record.valid, Bool.and_eq_true, decide_eq_true_eq] at h₁ h₂
  constructor
  · intro h
    unfold weekKey at h
    have hdata : pad4ch r₁.y ++ '-' :: 'W' :: pad2ch (mweek r₁.y r₁.m r₁.d) =
        pad4ch r₂.y ++ '-' :: 'W' :: pad2ch (mweek r₂.y r₂.m r₂.d) :=
      congrArg String.data h
    obtain ⟨h4, hrest⟩ := List.append_inj hdata rfl
    have hy : r₁.y = r₂.y := pad4ch_inj _ _ h₁.2 h₂.2 h4
    simp only [List.cons.injEq, true_and] at hrest
    have hw1 : mweek r₁.y r₁.m r₁.d ≤ 53 := mweek_le _ _ _ h₁.1.1.1.1.1.1.2 h₁.1.1.1.1.2
    have hw2 : mweek r₂.y r₂.m r₂.d ≤ 53 := mweek_le _ _ _ h₂.1.1.1.1.1.1.2 h₂.1.1.1.1.2
    exact ⟨hy, pad2ch_inj _ _ (by omega) (by omega) hrest⟩
  · rintro ⟨hy, hw⟩
    unfold weekKey
    rw [hw, hy]

/-- Witness for C6 amended at two concrete records. -/
theorem weekKey_eq_iff_witness :
    sundayRecord.valid = true ∧ mondayRecord.valid = true ∧
    (weekKey sundayRecord = weekKey mondayRecord ↔
      (sundayRecord.y = mondayRecord.y ∧
        mweek sundayRecord.y sundayRecord.m sundayRecord.d =
          mweek mondayRecord.y mondayRecord.m mondayRecord.d)) :=
  ⟨by decide, by decide, weekKey_eq_iff sundayRecord mondayRecord (by decide) (by decide)⟩

theorem dc_lt_iff (a b : ℕ) (ha : a ≤ 9) (hb : b ≤ 9) : dc a < dc b ↔ a < b := by
  interval_cases a <;> interval_cases b <;> decide

theorem dc_eq_iff (a b : ℕ) (ha : a ≤ 9) (hb : b ≤ 9) : dc a = dc b ↔ a = b := by
  interval_cases a <;> interval_cases b <;> decide

theorem lexLt_cons_same (c : Char) (t₁ t₂ : List Char) :
    lexLt (c :: t₁) (c :: t₂) = lexLt t₁ t₂ := by
  simp [lexLt]

theorem lexLt_append_congr (a b c d : List Char) (hlen : a.length = b.length) :
    lexLt (a ++ c) (b ++ d) = (lexLt a b || (decide (a = b) && lexLt c d)) := by
  induction a generalizing b with
  | nil =>
      cases b with
      | nil => simp [lexLt]
      | cons y ys => simp at hlen
  | cons x xs ih =>
      cases b with
      | nil => simp at hlen
      | cons y ys =>
          simp only [List.cons_append, lexLt, List.append_eq]
          rw [ih ys (by simpa using hlen)]
          rw [Bool.eq_iff_iff]
          simp only [Bool.or_eq_true, Bool.and_eq_true, decide_eq_true_eq, beq_iff_eq,
            List.cons.injEq]
          tauto

theorem pad2_lt_iff (m n : ℕ) (hm : m ≤ 99) (hn : n ≤ 99) :
    lexLt (pad2ch m) (pad2ch n) = true ↔ m < n := by
  unfold pad2ch
  simp only [lexLt, Bool.or_eq_true, Bool.and_eq_true, decide_eq_true_eq, beq_iff_eq,
    Bool.and_false, Bool.or_false]
  rw [dc_lt_iff _ _ (by omega) (by omega), dc_eq_iff _ _ (by omega) (by omega),
      dc_lt_iff _ _ (by omega) (by omega)]
  omega

theorem pad2_eq_iff (m n : ℕ) (hm : m ≤ 99) (hn : n ≤ 99) :
    pad2ch m = pad2ch n ↔ m = n :=
  ⟨pad2ch_inj m n hm hn, fun h => by rw [h]⟩

theorem pad4_lt_iff (y z : ℕ) (hy : y ≤ 9999) (hz : z ≤ 9999) :
    lexLt (pad4ch y) (pad4ch z) = true ↔ y < z := by
  unfold pad4ch
  rw [lexLt_append_congr (pad2ch (y / 100)) (pad2ch (z / 100)) _ _ rfl]
  simp only [Bool.or_eq_true, Bool.and_eq_true, decide_eq_true_eq]
  rw [pad2_lt_iff _ _ (by omega) (by omega), pad2_eq_iff _ _ (by omega) (by omega),
      pad2_lt_iff _ _ (by omega) (by omega)]
  omega

theorem pad4_eq_iff (y z : ℕ) (hy : y ≤ 9999) (hz : z ≤ 9999) :
    pad4ch y = pad4ch z ↔ y = z :=
  ⟨pad4ch_inj y z hy hz, fun h => by rw [h]⟩

/-- Lexicographic order of `YYYY-MM-DD.csv` filenames agrees with the
chronological order of the dates they encode. -/
theorem dateFileName_lt (y₁ m₁ d₁ y₂ m₂ d₂ : ℕ)
    (hy₁ : y₁ ≤ 9999) (hm₁ : m₁ ≤ 12) (hd₁ : d₁ ≤ 31)
    (hy₂ : y₂ ≤ 9999) (hm₂ : m₂ ≤ 12) (hd₂ : d₂ ≤ 31)
    (h : lexLt (dateFileName y₁ m₁ d₁).data (dateFileName y₂ m₂ d₂).data = true) :
    (y₁ * 13 + m₁) * 32 + d₁ < (y₂ * 13 + m₂) * 32 + d₂ := by
  have e₁ : (dateFileName y₁ m₁ d₁).data =
      pad4ch y₁ ++ '-' :: (pad2ch m₁ ++ '-' :: (pad2ch d₁ ++ ".csv".data)) := rfl
  have e₂ : (dateFileName y₂ m₂ d₂).data =
      pad4ch y₂ ++ '-' :: (pad2ch m₂ ++ '-' :: (pad2ch d₂ ++ ".csv".data)) := rfl
  rw [e₁, e₂, lexLt_append_congr (pad4ch y₁) (pad4ch y₂) _ _ rfl, lexLt_cons_same,
    lexLt_append_congr (pad2ch m₁) (pad2ch m₂) _ _ rfl, lexLt_cons_same,
    lexLt_append_congr (pad2ch d₁) (pad2ch d₂) _ _ rfl, lexLt_irrefl] at h
  simp only [Bool.or_eq_true, Bool.and_eq_true, decide_eq_true_eq, Bool.and_false,
    Bool.or_false] at h
  rw [pad4_lt_iff _ _ hy₁ hy₂, pad4_eq_iff _ _ hy₁ hy₂,
      pad2_lt_iff _ _ (by omega) (by omega), pad2_eq_iff _ _ (by omega) (by omega),
      pad2_lt_iff _ _ (by omega) (by omega)] at h
  omega

theorem mem_storeTimes (lines : List String) (u : ℕ) :
    u ∈ storeTimes lines ↔ ∃ r ∈ lines.filterMap parseRecord, r.tsKey = u := by
  unfold storeTimes
  constructor
  · intro h
    rcases List.mem_filterMap.mp h with ⟨l, hl, hlu⟩
    cases hp : parseRecord l with
    | none => rw [hp] at hlu; exact Option.noConfusion hlu
    | some r =>
        rw [hp] at hlu
        simp only [Option.map_some', Option.some.injEq] at hlu
        exact ⟨r, List.mem_filterMap.mpr ⟨l, hl, hp⟩, hlu⟩
  · rintro ⟨r, hr, rfl⟩
    rcases List.mem_filterMap.mp hr with ⟨l, hl, hp⟩
    refine List.mem_filterMap.mpr ⟨l, hl, ?_⟩
    rw [hp]
    rfl

/-- C10 counterexample: consolidation preserves ascending timestamp order
only when the pool's days come after the store's content.  Here the
(ascending) store already holds a May 2024 record while the pending pool
holds a well-formed April 2024 export (named `2024-04-01.csv`, rows on its
own day, internally ascending): after consolidation the store's records
are out of order. -/
theorem glob_order_preservation_cex :
    aprilFile.name = dateFileName 2024 4 1 ∧
    List.Pairwise (· ≤ ·) (storeTimes mayStore) ∧
    ((aprilFile.lines.filterMap parseRecord).all
      (fun r => r.y == 2024 && r.m == 4 && r.d == 1)) = true ∧
    List.Pairwise (· ≤ ·) (storeTimes aprilFile.lines) ∧
    ¬ List.Pairwise (· ≤ ·)
      (storeTimes (mergeMain allOk true ⟨mayStore, [aprilFile]⟩).store) := by decide

/-- C10 amended: `bin/merge.sh` visits the pending sources in glob
(byte-lexicographic filename) order and appends each file's rows in file
order.  For sources named `YYYY-MM-DD.csv` (distinct names), each carrying
only records of its own day in ascending order, lexicographic filename
order is chronological order; provided additionally that every record
already in the store precedes every record of the pool, the consolidated
store's records remain in ascending timestamp order. -/
theorem consolidation_preserves_order (store : List String) (pool : List RawFile)
    (hstore : List.Pairwise (· ≤ ·) (storeTimes store))
    (hnames : List.Pairwise (fun f g : RawFile => f.name ≠ g.name) pool)
    (hfiles : ∀ f ∈ pool, ∃ y m d : ℕ, f.name = dateFileName y m d ∧
      y ≤ 9999 ∧ 1 ≤ m ∧ m ≤ 12 ∧ 1 ≤ d ∧ d ≤ 31 ∧
      (∀ r ∈ f.lines.filterMap parseRecord, r.y = y ∧ r.m = m ∧ r.d = d) ∧
      List.Pairwise (· ≤ ·) (storeTimes f.lines))
    (hbefore : ∀ t ∈ storeTimes store, ∀ f ∈ pool, ∀ u ∈ storeTimes f.lines, t ≤ u) :
    List.Pairwise (· ≤ ·)
      (storeTimes (mergeMain allOk true ⟨store, pool⟩).store) := by
  by_cases hp : pool.isEmpty
  · have hpe : pool = [] := by
      cases hpl : pool with
      | nil => rfl
      | cons a l => rw [hpl] at hp; simp at hp
    subst hpe
    unfold mergeMain
    simpa using hstore
  · have hstoreq : (mergeMain allOk true ⟨store, pool⟩).store =
        store ++ filesLines (sortPool pool) := by
      unfold mergeMain
      simp [hp, foldl_mergeMainStep]
    rw [hstoreq, storeTimes_append, List.pairwise_append]
    refine ⟨hstore, ?_, ?_⟩
    · rw [storeTimes_filesLines]
      apply pairwise_joinL
      · intro b hb
        rcases List.mem_map.mp hb with ⟨f, hf, rfl⟩
        obtain ⟨y, m, d, -, -, -, -, -, -, -, hsorted⟩ :=
          hfiles f ((mem_sortPool f pool).mp hf)
        exact hsorted
      · have h1 := pairwise_sortPool pool
        have h2 : (sortPool pool).Pairwise (fun f g => f.name ≠ g.name) :=
          ((sortPool_perm pool).pairwise_iff (fun hab e => hab e.symm)).mpr hnames
        have h12 := h1.and h2
        rw [List.pairwise_map]
        refine h12.imp_of_mem ?_
        intro f g hfm hgm hfg
        obtain ⟨hglo, hne⟩ := hfg
        obtain ⟨y₁, m₁, d₁, hn₁, hy₁, hm₁l, hm₁, hd₁l, hd₁, hrec₁, -⟩ :=
          hfiles f ((mem_sortPool f pool).mp hfm)
        obtain ⟨y₂, m₂, d₂, hn₂, hy₂, hm₂l, hm₂, hd₂l, hd₂, hrec₂, -⟩ :=
          hfiles g ((mem_sortPool g pool).mp hgm)
        have hlt : lexLt f.name.data g.name.data = true := by
          rcases lexLt_false_cases g.name.data f.name.data hglo with h | h
          · exact h
          · exfalso
            exact hne (String.ext h.symm)
        rw [hn₁, hn₂] at hlt
        have hkey : (y₁ * 13 + m₁) * 32 + d₁ < (y₂ * 13 + m₂) * 32 + d₂ :=
          dateFileName_lt y₁ m₁ d₁ y₂ m₂ d₂ hy₁ hm₁ hd₁ hy₂ hm₂ hd₂ hlt
        intro x hx u hu
        obtain ⟨r, hrmem, rfl⟩ := (mem_storeTimes f.lines x).mp hx
        obtain ⟨q, hqmem, rfl⟩ := (mem_storeTimes g.lines u).mp hu
        obtain ⟨hry, hrm, hrd⟩ := hrec₁ r hrmem
        obtain ⟨hqy, hqm, hqd⟩ := hrec₂ q hqmem
        have hrv : r.valid = true := by
          rcases List.mem_filterMap.mp hrmem with ⟨l, -, hl⟩
          exact parseRecord_valid l r hl
        have hqv : q.valid = true := by
          rcases List.mem_filterMap.mp hqmem with ⟨l, -, hl⟩
          exact parseRecord_valid l q hl
        simp only [Record.valid, Bool.and_eq_true, decide_eq_true_eq] at hrv hqv
        have hrb := tsKey_day_bounds r hrv.1.1.1.2 hrv.1.1.2 hrv.1.2
        have hqb := tsKey_day_bounds q hqv.1.1.1.2 hqv.1.1.2 hqv.1.2
        have hrk : r.dateKey = (y₁ * 13 + m₁) * 32 + d₁ := by
          unfold Record.dateKey
          rw [hry, hrm, hrd]
        have hqk : q.dateKey = (y₂ * 13 + m₂) * 32 + d₂ := by
          unfold Record.dateKey
          rw [hqy, hqm, hqd]
        rw [hrk] at hrb
        rw [hqk] at hqb
        omega
    · intro x hx u hu
      rw [storeTimes_filesLines] at hu
      obtain ⟨b, hb, hub⟩ := mem_joinL _ u hu
      rcases List.mem_map.mp hb with ⟨f, hf, rfl⟩
      exact hbefore x hx f ((mem_sortPool f pool).mp hf) u hub

/-- Witness for C10 amended: a header-only store and one well-formed day
export. -/
theorem consolidation_preserves_order_witness :
    List.Pairwise (· ≤ ·) (storeTimes (mergeMain allOk true
      ⟨["time,strikes,length,value"], [aprilFile]⟩).store) := by
  apply consolidation_preserves_order
  · decide
  · decide
  · intro f hf
    have hfa : f = aprilFile := by simpa using hf
    subst hfa
    exact ⟨2024, 4, 1, by decide, by decide, by decide, by decide, by decide, by decide,
      by decide, by decide⟩
  · decide
